import Mathlib

/-
Verification of the htmltoadf structural-mapping core: the leaf extractor
(src/extractor.rs) and the tag registry / permitted-children tables
(src/adf_structure.rs), shallowly embedded in Lean.

The parsed HTML tree is modelled in first-child / next-sibling form so that
every recursion is structural and computable.  An `HNode` value denotes a
forest: the node described by the head constructor together with the chain of
its following siblings.  Leaf positions are recorded as paths (lists of child
indices) into that forest, playing the role of the `node` back-reference held
by the Rust `DocNode`.
-/

/-- White-space test on a character, matching the Unicode `White_Space`
property that the source's string trimming (`str::trim`) uses. -/
def isWs (c : Char) : Bool :=
  let n := c.toNat
  (9 ≤ n && n ≤ 13) || n == 32 || n == 0x85 || n == 0xA0 || n == 0x1680 ||
  (0x2000 ≤ n && n ≤ 0x200A) || n == 0x2028 || n == 0x2029 || n == 0x202F ||
  n == 0x205F || n == 0x3000

/-- Model of the source's `str::trim`: drop white-space characters from both
ends of a character list. -/
def rustTrimL (cs : List Char) : List Char :=
  ((cs.dropWhile isWs).reverse.dropWhile isWs).reverse

/-- The keep test the extractor applies to a text node (extractor.rs lines
111-117): inside a `pre` context keep unless completely empty, outside keep
only when trimming leaves something. -/
def keepText (inPre : Bool) (s : String) : Bool :=
  if inPre then !(s.data.isEmpty) else !((rustTrimL s.data).isEmpty)

/-- Parsed HTML tree in first-child / next-sibling form.  A value denotes a
forest; `nil` ends a sibling chain.  `comment` stands for the node kinds the
extractor ignores (comments, doctypes, processing instructions). -/
inductive HNode where
  | nil : HNode
  | text (s : String) (sib : HNode)
  | comment (s : String) (sib : HNode)
  | elem (name : String) (child : HNode) (sib : HNode)
deriving DecidableEq

/-- Leaf record emitted by the extractor (types/doc_node.rs): a name, the raw
text (meaningful only for text leaves), and the provenance position in the
parse tree, modelled as the path of child indices from the root forest. -/
structure DocNode where
  name : String
  text : String
  pos : List Nat
deriving DecidableEq

/-- Context flag for the children of an element: they have an ancestor
`pre` exactly when the element does or the element is itself a `pre`. -/
def childCtx (inPre : Bool) (name : String) : Bool := inPre || name == "pre"

/-- Body of `has_text_node` (extractor.rs lines 27-45) over a forest of
children: some child is a `br` element, an element recursively containing a
meaningful text node, or a text node kept under its `pre` context. -/
def anyMeaningful (ctx : Bool) : HNode → Bool
  | .nil => false
  | .text s sib => keepText ctx s || anyMeaningful ctx sib
  | .comment _ sib => anyMeaningful ctx sib
  | .elem nm ch sib =>
      (nm == "br" || anyMeaningful (childCtx ctx nm) ch) || anyMeaningful ctx sib

/-- Faithful model of `has_text_node` (extractor.rs lines 27-45); `inPre`
says whether the inspected node has a proper ancestor named `pre`. -/
def has_text_node (inPre : Bool) : HNode → Bool
  | .elem nm ch _ => anyMeaningful (childCtx inPre nm) ch
  | _ => false

/-- Leaves contributed by an element's own closing visit (extractor.rs lines
69-100): `iframe`/`img` always, placeholder `hrbr` relabelled to `hr`, `br`
always, and `td` only when `has_text_node` fails; all with empty text. -/
def selfLeaf (inPre : Bool) (p : List Nat) (nm : String) (ch : HNode) : List DocNode :=
  if nm == "iframe" || nm == "img" then [⟨nm, "", p⟩]
  else if nm == "hrbr" then [⟨"hr", "", p⟩]
  else if nm == "br" then [⟨"br", "", p⟩]
  else if nm == "td" then
    if has_text_node inPre (.elem nm ch .nil) then [] else [⟨"td", "", p⟩]
  else []

/-- Model of the extractor traversal (extractor.rs lines 63-133) over the
forest `f` whose nodes sit at positions `q ++ [i]`, `q ++ [i+1]`, ...; each
node is recorded on its closing visit, so an element's subtree leaves precede
the element's own leaf, exactly as in the `Edge::Close` handling. -/
def extractF (inPre : Bool) (q : List Nat) (i : Nat) : HNode → List DocNode
  | .nil => []
  | .text s sib =>
      (if keepText inPre s then [⟨"text", s, q ++ [i]⟩] else []) ++
        extractF inPre q (i + 1) sib
  | .comment _ sib => extractF inPre q (i + 1) sib
  | .elem nm ch sib =>
      (extractF (childCtx inPre nm) (q ++ [i]) 0 ch ++ selfLeaf inPre (q ++ [i]) nm ch) ++
        extractF inPre q (i + 1) sib

/-- Model of `extract_leaves`: run the traversal from the root forest with no
`pre` ancestor, positions starting at the empty path. -/
def extract_leaves (t : HNode) : List DocNode := extractF false [] 0 t

/-- Following-sibling projection. -/
def sibOf : HNode → HNode
  | .nil => .nil
  | .text _ sib => sib
  | .comment _ sib => sib
  | .elem _ _ sib => sib

/-- Drop `n` leading nodes of a forest. -/
def drops : Nat → HNode → HNode
  | 0, f => f
  | n + 1, f => drops n (sibOf f)

/-- Node addressed by a path into a forest, returned together with its
sibling chain (the head constructor is the addressed node). -/
def nodeAt : HNode → List Nat → Option HNode
  | _, [] => none
  | f, i :: p =>
    match drops i f, p with
    | .nil, _ => none
    | g, [] => some g
    | .elem _ ch _, _ :: _ => nodeAt ch p
    | _, _ :: _ => none

/-- Whether the node addressed by a path has a proper ancestor named `pre`,
given that the whole forest lives under context `b`. -/
def ctxAt (b : Bool) : HNode → List Nat → Bool
  | _, [] => b
  | f, i :: p =>
    match drops i f, p with
    | .elem nm ch _, _ :: _ => ctxAt (childCtx b nm) ch p
    | _, _ => b

/-- Leaves contributed by one node itself (not its descendants), given its
`pre` context and position. -/
def ownLeaves (b : Bool) (p : List Nat) : HNode → List DocNode
  | .text s _ => if keepText b s then [⟨"text", s, p⟩] else []
  | .elem nm ch _ => selfLeaf b p nm ch
  | _ => []

/-- Boolean test that the first list is a leading segment of the second. -/
def begWith {α : Type} [DecidableEq α] : List α → List α → Bool
  | [], _ => true
  | _ :: _, [] => false
  | a :: p, b :: q => if a = b then begWith p q else false

/-- Strict order on positions given by the closing (post-order) visit: a
descendant closes before its ancestors, siblings close left to right. -/
def postLtB : List Nat → List Nat → Bool
  | [], _ => false
  | _ :: _, [] => true
  | a :: p, b :: q => if a < b then true else if a = b then postLtB p q else false

/-- Strict order on positions given by first appearance in the document
(pre-order): an ancestor opens before its descendants, siblings left to
right. -/
def docLtB : List Nat → List Nat → Bool
  | [], [] => false
  | [], _ :: _ => true
  | _ :: _, [] => false
  | a :: p, b :: q => if a < b then true else if a = b then docLtB p q else false

/-- All proper descendants of the nodes of a forest (the nodes themselves
included), each paired with its own `pre`-ancestor flag; sibling chains are
cut off so each entry stands for a single node. -/
def descs (ctx : Bool) : HNode → List (Bool × HNode)
  | .nil => []
  | .text s sib => (ctx, .text s .nil) :: descs ctx sib
  | .comment s sib => (ctx, .comment s .nil) :: descs ctx sib
  | .elem nm ch sib =>
      (ctx, .elem nm ch .nil) :: (descs (childCtx ctx nm) ch ++ descs ctx sib)

/-- Meaningfulness of one descendant in the words of the spec, with the
context-dependent text test: a line-break element, or a text node that is
non-empty (inside a preformatted context) respectively contains a
non-white-space character (outside one). -/
def meaningfulOne : Bool × HNode → Bool
  | (ctx, .text s _) => if ctx then !(s.data.isEmpty) else s.data.any fun c => !isWs c
  | (_, .elem nm _ _) => nm == "br"
  | _ => false

/-- A forest of children contains a meaningful descendant (context-dependent
text test). -/
def hasMeaningfulDesc (ctx : Bool) (f : HNode) : Bool :=
  (descs ctx f).any meaningfulOne

/-- Meaningfulness of one descendant as claim C2 words it: the
outside-preformatted-context test is applied to every text node. -/
def meaningfulOneOut : Bool × HNode → Bool
  | (_, .text s _) => s.data.any fun c => !isWs c
  | (_, .elem nm _ _) => nm == "br"
  | _ => false

/-- A forest of children contains a meaningful descendant under claim C2's
reading (outside-context test everywhere). -/
def hasMeaningfulDescOut (f : HNode) : Bool :=
  (descs false f).any meaningfulOneOut

/-- The placeholder tag name used by the horizontal-rule rewrite
(extractor.rs line 18). -/
def HRBR_PLACEHOLDER : String := "hrbr"

/-- The replacement text `<hrbr></hrbr>` inserted for each match. -/
def phPair : List Char := "<hrbr></hrbr>".data

/-- Scanner model of `Regex::new("</?hr/?>").replace_all(...)` used by
`esc_hr` (extractor.rs lines 20-25): at each position the four token shapes
`<hr>`, `<hr/>`, `</hr>`, `</hr/>` (mutually exclusive at a fixed position)
are replaced by the placeholder pair, other characters are copied. -/
def escHrL : List Char → List Char
  | '<' :: '/' :: 'h' :: 'r' :: '/' :: '>' :: rest => phPair ++ escHrL rest
  | '<' :: '/' :: 'h' :: 'r' :: '>' :: rest => phPair ++ escHrL rest
  | '<' :: 'h' :: 'r' :: '/' :: '>' :: rest => phPair ++ escHrL rest
  | '<' :: 'h' :: 'r' :: '>' :: rest => phPair ++ escHrL rest
  | c :: rest => c :: escHrL rest
  | [] => []

/-- Model of `esc_hr` on strings. -/
def esc_hr (s : String) : String := String.mk (escHrL s.data)

/-- Boolean test that `p` occurs as a contiguous run somewhere in the second
list. -/
def hasSubB (p : List Char) : List Char → Bool
  | [] => begWith p ([] : List Char)
  | c :: rest => begWith p (c :: rest) || hasSubB p rest

/-- The permitted-children rule forms of adf_permitted_children.rs as used by
adf_structure.rs: `any` (constructor `AdfPermittedChildren::any`) and
`any_starts_with`. -/
inductive AdfPermittedChildren where
  | any (types : List String)
  | any_starts_with (startTypes : List String) (repTypes : List String)
deriving DecidableEq

/-- The `LEGAL_CHILD_TYPES` table of adf_structure.rs lines 19-68, entry for
entry with its literal strings. -/
def LEGAL_CHILD_TYPES : String → Option AdfPermittedChildren
  | "paragraph" => some (.any ["text", "emoji", "hardBreak"])
  | "heading" => some (.any ["text", "emoji", "hardBreak"])
  | "bulletList" => some (.any ["listItem"])
  | "orderedList" => some (.any ["listItem"])
  | "blockquote" => some (.any ["paragraph"])
  | "codeBlock" => some (.any ["paragraph"])
  | "listItem" => some (.any_starts_with ["paragraph", "mediaSingle", "codeBlock"]
      ["paragraph", "mediaAdfPermittedChildren", "codeBlock", "orderedList", "bulletList"])
  | "table" => some (.any ["tableRow"])
  | "tableRow" => some (.any ["tableHeader", "tableCell"])
  | "tableHeader" => some (.any ["codeBlock", "blockCard", "paragraph", "bulletList",
      "mediaSingle", "orderedList", "heading", "panel", "blockquote", "rule", "mediaGroup",
      "decisionList", "taskList", "extension", "embedCard", "nestedExpand"])
  | "tableCell" => some (.any ["codeBlock", "blockCard", "paragraph", "bulletList",
      "mediaSingle", "orderedList", "heading", "panel", "blockquote", "rule", "mediaGroup",
      "decisionList", "taskList", "extension", "embedCard", "nestedExpand", "hardBreak"])
  | "doc" => some (.any ["blockCard", "blockquote", "bodiedExtension", "bulletList",
      "codeBlock", "decisionList", "embedCard", "expand", "extension", "heading",
      "layoutSection", "mediaGroup", "mediaSingle", "orderedList", "panel", "paragraph",
      "rule", "table", "taskList"])
  | _ => none

/-- Modelled from the spec: the legality predicate of `AdfPermittedChildren`
lives in the types module, which is not among the given sources; following
the spec's GrammarEngine contract, `any(S)` is legal iff every child name is
drawn from `S`, and `any_starts_with(P, R)` (PrefixThenRepeat) is legal iff
the sequence splits into a leading run of members of `P` followed by a
trailing run of members of `R`. -/
def permits : AdfPermittedChildren → List String → Bool
  | .any s, xs => xs.all fun x => s.contains x
  | .any_starts_with p r, xs =>
      (List.range (xs.length + 1)).any fun k =>
        ((xs.take k).all fun x => p.contains x) && ((xs.drop k).all fun x => r.contains x)

/-- Scalar JSON values appearing in the image attributes. -/
inductive JVal where
  | str (s : String)
  | int (n : Int)
deriving DecidableEq

/-- Lookup in a JSON object modelled as an association list. -/
def getKV (k : String) : List (String × JVal) → Option JVal
  | [] => none
  | (k', v) :: rest => if k' = k then some v else getKV k rest

/-- Index-assignment into a JSON object: replace an existing binding in
place, otherwise append. -/
def setKV (k : String) (v : JVal) : List (String × JVal) → List (String × JVal)
  | [] => [(k, v)]
  | (k', v') :: rest => if k' = k then (k, v) :: rest else (k', v') :: setKV k v rest

/-- Conditional assignment for the `if let Some(..) = attr { m[k] = v }`
pattern of the image resolver. -/
def maybeSet (k : String) (o : Option JVal) (m : List (String × JVal)) :
    List (String × JVal) :=
  match o with
  | some v => setKV k v m
  | none => m

/-- Digit accumulation for the integer parser; fails on any non-digit. -/
def parseDigitsAux : List Char → Nat → Option Nat
  | [], acc => some acc
  | c :: rest, acc =>
      if c.isDigit then parseDigitsAux rest (10 * acc + (c.toNat - 48)) else none

/-- Magnitude-and-range part of `str::parse::<i64>`: at least one digit, all
characters digits, and the signed value within the i64 range. -/
def parseSigned (neg : Bool) (ds : List Char) : Option Int :=
  match ds with
  | [] => none
  | _ =>
    match parseDigitsAux ds 0 with
    | some n =>
        let v : Int := if neg then -(n : Int) else (n : Int)
        if -(2 ^ 63) ≤ v ∧ v ≤ 2 ^ 63 - 1 then some v else none
    | none => none

/-- Model of Rust `str::parse::<i64>` as used for `data-width`/`data-height`:
an optional sign followed by one or more ASCII digits, within i64 range. -/
def parseI64 (s : String) : Option Int :=
  match s.data with
  | '+' :: rest => parseSigned false rest
  | '-' :: rest => parseSigned true rest
  | rest => parseSigned false rest

/-- The synthesized `media` child of an `img` node: the `"type": "media"`
object with its `attrs` object. -/
structure MediaChild where
  typename : String
  attrs : List (String × JVal)
deriving DecidableEq

/-- Model of the `img` entry of `NODE_MAP` (adf_structure.rs lines 293-362):
from the source element's attribute lookup, produce the `mediaSingle`
attributes and the synthesized `media` children. -/
def imgResolve (attr : String → Option String) :
    List (String × JVal) × List MediaChild :=
  let layout := (attr "data-layout").getD "center"
  let result := [("layout", JVal.str layout)]
  let childAttrs : List (String × JVal) :=
    match attr "src" with
    | some src => [("url", JVal.str src), ("type", JVal.str "external")]
    | none =>
      match attr "data-media-id" with
      | some mid =>
          let m : List (String × JVal) := [("id", JVal.str mid), ("type", JVal.str "file")]
          let m := maybeSet "collection" ((attr "data-collection").map JVal.str) m
          let m := maybeSet "alt" ((attr "alt").map JVal.str) m
          let m := maybeSet "width" (((attr "data-width").bind parseI64).map JVal.int) m
          let m := maybeSet "height" (((attr "data-height").bind parseI64).map JVal.int) m
          let m := maybeSet "widthType" ((attr "data-width-type").bind fun w =>
              if w == "pixel" || w == "percentage" then some (JVal.str w) else none) m
          m
      | none => []
  (result, [⟨"media", childAttrs⟩])

/-- Concrete inputs used by the claim theorems and witnesses. -/
def exTdEmpty : HNode := .elem "html" (.elem "td" .nil .nil) .nil

/-- Tree for the examples `<p>  hello  </p>`. -/
def exHello : HNode := .elem "html" (.elem "p" (.text "  hello  " .nil) .nil) .nil

/-- Tree for a white-space-only text node outside a preformatted context. -/
def exWsOnly : HNode := .elem "html" (.elem "p" (.text "   " .nil) .nil) .nil

/-- Tree for the example `<pre>   </pre>`. -/
def exPreWs : HNode := .elem "html" (.elem "pre" (.text "   " .nil) .nil) .nil

/-- Tree for a `td` whose only content is white-space inside a `pre`. -/
def exTdPreWs : HNode := .elem "html" (.elem "td" (.elem "pre" (.text "  " .nil) .nil) .nil) .nil

/-- Tree for a `td` whose only content is an `img` element. -/
def exTdImg : HNode := .elem "html" (.elem "td" (.elem "img" .nil .nil) .nil) .nil

/-- Tree with two sibling text nodes under a `p`. -/
def exTwoTexts : HNode := .elem "html" (.elem "p" (.text "a" (.text "b" .nil)) .nil) .nil

/-- Parse tree of `<p>a<hrbr></hrbr>b</p>`, the rewritten form of
`<p>a<hr/>b</p>`. -/
def exHrBetween : HNode :=
  .elem "html" (.elem "p" (.text "a" (.elem "hrbr" .nil (.text "b" .nil))) .nil) .nil

/-- Parse tree of `<hrbr></hrbr><hrbr></hrbr>`, the rewritten form of
`<hr></hr>`. -/
def exTwoHr : HNode := .elem "html" (.elem "hrbr" .nil (.elem "hrbr" .nil .nil)) .nil

/-- Tree whose single leaf is an `img` element. -/
def exImgOnly : HNode := .elem "html" (.elem "img" .nil .nil) .nil

/-- Tree with an empty `th` followed by a `p` containing text. -/
def exThThenP : HNode :=
  .elem "html" (.elem "th" .nil (.elem "p" (.text "x" .nil) .nil)) .nil

/-- Attribute set of `<img src="http://x/y.png" data-layout="wide">`. -/
def attrExternal : String → Option String := fun k =>
  if k == "src" then some "http://x/y.png"
  else if k == "data-layout" then some "wide" else none

/-- Attribute set of `<img data-media-id="123" data-width="50"
data-width-type="pixel">`. -/
def attrFile : String → Option String := fun k =>
  if k == "data-media-id" then some "123"
  else if k == "data-width" then some "50"
  else if k == "data-width-type" then some "pixel" else none

theorem begWith_append {α : Type} [DecidableEq α] (p r : List α) :
    begWith p (p ++ r) = true := by
  induction p with
  | nil => simp [begWith]
  | cons a p ih => simp [begWith, ih]

theorem begWith_to_append {α : Type} [DecidableEq α] :
    ∀ {p x : List α}, begWith p x = true → ∃ r, x = p ++ r := by
  intro p
  induction p with
  | nil => intro x _; exact ⟨x, rfl⟩
  | cons a p ih =>
    intro x h
    cases x with
    | nil => simp [begWith] at h
    | cons b x =>
      by_cases hab : a = b
      · subst hab
        rw [begWith, if_pos rfl] at h
        obtain ⟨r, hr⟩ := ih h
        exact ⟨r, by rw [hr]; rfl⟩
      · rw [begWith, if_neg hab] at h
        cases h

theorem postLtB_append_same : ∀ (p x y : List Nat), postLtB (p ++ x) (p ++ y) = postLtB x y := by
  intro p
  induction p with
  | nil => intro x y; rfl
  | cons a p ih => intro x y; simp [postLtB, ih]

theorem postLtB_irrefl : ∀ p : List Nat, postLtB p p = false := by
  intro p
  induction p with
  | nil => rfl
  | cons a p ih => simp [postLtB, ih]

theorem postLtB_head_lt {a c : Nat} (h : a < c) (p r : List Nat) :
    postLtB (a :: p) (c :: r) = true := by
  simp [postLtB, h]

theorem postLtB_suffix (p y : List Nat) (hy : y ≠ []) : postLtB (p ++ y) p = true := by
  have h := postLtB_append_same p y []
  rw [List.append_nil] at h
  rw [h]
  cases y with
  | nil => exact absurd rfl hy
  | cons a y => rfl

theorem docLtB_of_postLtB : ∀ (x y : List Nat), postLtB x y = true → begWith y x = false →
    docLtB x y = true := by
  intro x
  induction x with
  | nil => intro y h _; cases y <;> simp [postLtB] at h
  | cons a p ih =>
    intro y h hb
    cases y with
    | nil => simp [begWith] at hb
    | cons b q =>
      by_cases hlt : a < b
      · simp [docLtB, hlt]
      · have hab : a = b ∧ postLtB p q = true := by simpa [postLtB, hlt] using h
        obtain ⟨hab, hpq⟩ := hab
        subst hab
        have hb' : begWith q p = false := by simpa [begWith] using hb
        simp [docLtB, ih q hpq hb']

theorem drops_nilF : ∀ n : Nat, drops n HNode.nil = HNode.nil := by
  intro n
  induction n with
  | zero => rfl
  | succ n ih => simpa [drops, sibOf] using ih

theorem nodeAt_nilF (p : List Nat) : nodeAt HNode.nil p = none := by
  cases p with
  | nil => rfl
  | cons j p => simp [nodeAt, drops_nilF]

theorem nodeAt_shift (f : HNode) (j : Nat) (p : List Nat) :
    nodeAt f ((j + 1) :: p) = nodeAt (sibOf f) (j :: p) := rfl

theorem ctxAt_shift (b : Bool) (f : HNode) (j : Nat) (p : List Nat) :
    ctxAt b f ((j + 1) :: p) = ctxAt b (sibOf f) (j :: p) := rfl

theorem rustTrimL_nil_iff (cs : List Char) :
    rustTrimL cs = [] ↔ ∀ c ∈ cs, isWs c = true := by
  unfold rustTrimL
  constructor
  · intro h c hc
    have h2 : (cs.dropWhile isWs).reverse.dropWhile isWs = [] := by
      simpa using congrArg List.reverse h
    have hall : ∀ a ∈ cs.dropWhile isWs, isWs a = true := by
      intro a ha
      exact List.dropWhile_eq_nil_iff.mp h2 a (List.mem_reverse.mpr ha)
    rw [← List.takeWhile_append_dropWhile isWs cs] at hc
    rcases List.mem_append.mp hc with h1 | h1
    · exact List.mem_takeWhile_imp h1
    · exact hall _ h1
  · intro h
    have h1 : cs.dropWhile isWs = [] := List.dropWhile_eq_nil_iff.mpr fun a ha => h a ha
    simp [h1]

theorem keepText_out (s : String) : keepText false s = s.data.any fun c => !isWs c := by
  cases h : s.data.any fun c => !isWs c with
  | false =>
    have hall : ∀ c ∈ s.data, isWs c = true := by
      intro c hc
      have := List.any_eq_false.mp h c hc
      simpa using this
    have hnil : rustTrimL s.data = [] := (rustTrimL_nil_iff _).mpr hall
    simp [keepText, hnil]
  | true =>
    have hne : rustTrimL s.data ≠ [] := by
      intro hnil
      obtain ⟨c, hc, hcw⟩ := List.any_eq_true.mp h
      have := (rustTrimL_nil_iff _).mp hnil c hc
      rw [this] at hcw
      cases hcw
    cases hE : rustTrimL s.data with
    | nil => exact absurd hE hne
    | cons a l => simp [keepText, hE]

theorem anyMeaningful_eq (f : HNode) :
    ∀ ctx, anyMeaningful ctx f = hasMeaningfulDesc ctx f := by
  unfold hasMeaningfulDesc
  induction f with
  | nil => intro ctx; rfl
  | text s sib ih =>
    intro ctx
    cases ctx
    · simp [anyMeaningful, descs, meaningfulOne, ih, keepText_out]
    · simp [anyMeaningful, descs, meaningfulOne, ih, keepText]
  | comment s sib ih =>
    intro ctx
    simp [anyMeaningful, descs, meaningfulOne, ih]
  | elem nm ch sib ihc ihs =>
    intro ctx
    simp [anyMeaningful, descs, meaningfulOne, List.any_append, ihc, ihs, Bool.or_assoc]

theorem selfLeaf_mem {b : Bool} {p : List Nat} {nm : String} {ch : HNode} {l : DocNode}
    (h : l ∈ selfLeaf b p nm ch) :
    l.pos = p ∧ l.text = "" ∧ l.name ≠ "text" := by
  unfold selfLeaf at h
  split_ifs at h with h1 h2 h3 h4 h5
  · simp only [List.mem_singleton] at h
    subst h
    have h1' : nm = "iframe" ∨ nm = "img" := by simpa using h1
    refine ⟨rfl, rfl, fun hcon => ?_⟩
    rcases h1' with h1' | h1'
    · subst h1'
      exact absurd hcon (show ("iframe" : String) ≠ "text" by decide)
    · subst h1'
      exact absurd hcon (show ("img" : String) ≠ "text" by decide)
  · simp only [List.mem_singleton] at h
    subst h
    exact ⟨rfl, rfl, fun hcon => absurd hcon (show ("hr" : String) ≠ "text" by decide)⟩
  · simp only [List.mem_singleton] at h
    subst h
    exact ⟨rfl, rfl, fun hcon => absurd hcon (show ("br" : String) ≠ "text" by decide)⟩
  · cases h
  · simp only [List.mem_singleton] at h
    subst h
    exact ⟨rfl, rfl, fun hcon => absurd hcon (show ("td" : String) ≠ "text" by decide)⟩
  · cases h

theorem selfLeaf_pairwise (b : Bool) (p : List Nat) (nm : String) (ch : HNode) :
    (selfLeaf b p nm ch).Pairwise fun a c => postLtB a.pos c.pos = true := by
  unfold selfLeaf
  split_ifs <;> simp

theorem mem_extractF : ∀ (f : HNode) (b : Bool) (q : List Nat) (i : Nat) (l : DocNode),
    l ∈ extractF b q i f →
    ∃ j rest g, l.pos = q ++ (i + j) :: rest ∧ nodeAt f (j :: rest) = some g ∧
      l ∈ ownLeaves (ctxAt b f (j :: rest)) l.pos g := by
  intro f
  induction f with
  | nil =>
    intro b q i l h
    simp [extractF] at h
  | text s sib ih =>
    intro b q i l h
    rw [extractF] at h
    rcases List.mem_append.mp h with h | h
    · by_cases hk : keepText b s
      · rw [if_pos hk] at h
        simp only [List.mem_singleton] at h
        subst h
        refine ⟨0, [], .text s sib, rfl, rfl, ?_⟩
        simp [ownLeaves, ctxAt, drops, hk]
      · rw [if_neg hk] at h
        cases h
    · obtain ⟨j, rest, g, hpos, hnode, hown⟩ := ih b q (i + 1) l h
      refine ⟨j + 1, rest, g, ?_, ?_, ?_⟩
      · rw [hpos]
        have e : i + 1 + j = i + (j + 1) := by omega
        rw [e]
      · rw [nodeAt_shift]
        exact hnode
      · rw [ctxAt_shift]
        exact hown
  | comment s sib ih =>
    intro b q i l h
    rw [extractF] at h
    obtain ⟨j, rest, g, hpos, hnode, hown⟩ := ih b q (i + 1) l h
    refine ⟨j + 1, rest, g, ?_, ?_, ?_⟩
    · rw [hpos]
      have e : i + 1 + j = i + (j + 1) := by omega
      rw [e]
    · rw [nodeAt_shift]
      exact hnode
    · rw [ctxAt_shift]
      exact hown
  | elem nm ch sib ihc ihs =>
    intro b q i l h
    rw [extractF] at h
    rcases List.mem_append.mp h with h | h
    · rcases List.mem_append.mp h with h | h
      · obtain ⟨j, rest, g, hpos, hnode, hown⟩ := ihc (childCtx b nm) (q ++ [i]) 0 l h
        refine ⟨0, j :: rest, g, ?_, ?_, ?_⟩
        · rw [hpos]
          simp
        · show nodeAt (.elem nm ch sib) (0 :: j :: rest) = some g
          simpa [nodeAt, drops] using hnode
        · show l ∈ ownLeaves (ctxAt b (.elem nm ch sib) (0 :: j :: rest)) l.pos g
          simpa [ctxAt, drops] using hown
      · refine ⟨0, [], .elem nm ch sib, ?_, rfl, ?_⟩
        · rw [(selfLeaf_mem h).1]
          simp
        · show l ∈ ownLeaves (ctxAt b (.elem nm ch sib) [0]) l.pos (.elem nm ch sib)
          rw [(selfLeaf_mem h).1]
          simpa [ownLeaves, ctxAt, drops] using h
    · obtain ⟨j, rest, g, hpos, hnode, hown⟩ := ihs b q (i + 1) l h
      refine ⟨j + 1, rest, g, ?_, ?_, ?_⟩
      · rw [hpos]
        have e : i + 1 + j = i + (j + 1) := by omega
        rw [e]
      · rw [nodeAt_shift]
        exact hnode
      · rw [ctxAt_shift]
        exact hown

theorem extractF_pos_shape {f : HNode} {b : Bool} {q : List Nat} {i : Nat} {l : DocNode}
    (h : l ∈ extractF b q i f) : ∃ j rest, l.pos = q ++ (i + j) :: rest := by
  obtain ⟨j, rest, g, h1, _, _⟩ := mem_extractF f b q i l h
  exact ⟨j, rest, h1⟩

theorem ownLeaves_extractF : ∀ (f : HNode) (b : Bool) (q : List Nat) (i j : Nat)
    (rest : List Nat) (g : HNode) (l : DocNode),
    nodeAt f (j :: rest) = some g →
    l ∈ ownLeaves (ctxAt b f (j :: rest)) (q ++ (i + j) :: rest) g →
    l ∈ extractF b q i f := by
  intro f
  induction f with
  | nil =>
    intro b q i j rest g l hn _
    rw [nodeAt_nilF] at hn
    cases hn
  | text s sib ih =>
    intro b q i j rest g l hn hown
    cases j with
    | zero =>
      cases rest with
      | nil =>
        have hg : some (HNode.text s sib) = some g := hn
        have hg' : g = .text s sib := (Option.some.inj hg).symm
        subst hg'
        rw [extractF]
        apply List.mem_append_left
        simpa [ownLeaves, ctxAt, drops] using hown
      | cons r rest' =>
        simp [nodeAt, drops] at hn
    | succ j' =>
      rw [nodeAt_shift] at hn
      rw [ctxAt_shift] at hown
      rw [extractF]
      apply List.mem_append_right
      apply ih b q (i + 1) j' rest g l hn
      have e : i + (j' + 1) = i + 1 + j' := by omega
      rw [e] at hown
      exact hown
  | comment s sib ih =>
    intro b q i j rest g l hn hown
    cases j with
    | zero =>
      cases rest with
      | nil =>
        have hg : some (HNode.comment s sib) = some g := hn
        have hg' : g = .comment s sib := (Option.some.inj hg).symm
        subst hg'
        simp [ownLeaves] at hown
      | cons r rest' =>
        simp [nodeAt, drops] at hn
    | succ j' =>
      rw [nodeAt_shift] at hn
      rw [ctxAt_shift] at hown
      rw [extractF]
      apply ih b q (i + 1) j' rest g l hn
      have e : i + (j' + 1) = i + 1 + j' := by omega
      rw [e] at hown
      exact hown
  | elem nm ch sib ihc ihs =>
    intro b q i j rest g l hn hown
    cases j with
    | zero =>
      cases rest with
      | nil =>
        have hg : some (HNode.elem nm ch sib) = some g := hn
        have hg' : g = .elem nm ch sib := (Option.some.inj hg).symm
        subst hg'
        rw [extractF]
        apply List.mem_append_left
        apply List.mem_append_right
        simpa [ownLeaves, ctxAt, drops] using hown
      | cons r rest' =>
        have hn' : nodeAt ch (r :: rest') = some g := by
          simpa [nodeAt, drops] using hn
        rw [extractF]
        apply List.mem_append_left
        apply List.mem_append_left
        apply ihc (childCtx b nm) (q ++ [i]) 0 r rest' g l hn'
        have e : (q ++ [i]) ++ (0 + r) :: rest' = q ++ (i + 0) :: r :: rest' := by simp
        rw [e]
        simpa [ctxAt, drops] using hown
    | succ j' =>
      rw [nodeAt_shift] at hn
      rw [ctxAt_shift] at hown
      rw [extractF]
      apply List.mem_append_right
      apply ihs b q (i + 1) j' rest g l hn
      have e : i + (j' + 1) = i + 1 + j' := by omega
      rw [e] at hown
      exact hown

theorem extractF_pairwise : ∀ (f : HNode) (b : Bool) (q : List Nat) (i : Nat),
    (extractF b q i f).Pairwise fun a c => postLtB a.pos c.pos = true := by
  intro f
  induction f with
  | nil => intro b q i; simp [extractF]
  | text s sib ih =>
    intro b q i
    rw [extractF]
    apply List.pairwise_append.mpr
    refine ⟨?_, ih b q (i + 1), ?_⟩
    · split <;> simp
    · intro a ha c hc
      have hapos : a.pos = q ++ [i] := by
        by_cases hk : keepText b s
        · rw [if_pos hk] at ha
          simp only [List.mem_singleton] at ha
          rw [ha]
        · rw [if_neg hk] at ha
          cases ha
      obtain ⟨j, rest, hcpos⟩ := extractF_pos_shape hc
      rw [hapos, hcpos, postLtB_append_same]
      exact postLtB_head_lt (by omega) [] rest
  | comment s sib ih =>
    intro b q i
    rw [extractF]
    exact ih b q (i + 1)
  | elem nm ch sib ihc ihs =>
    intro b q i
    rw [extractF]
    apply List.pairwise_append.mpr
    refine ⟨?_, ihs b q (i + 1), ?_⟩
    · apply List.pairwise_append.mpr
      refine ⟨ihc (childCtx b nm) (q ++ [i]) 0, selfLeaf_pairwise b (q ++ [i]) nm ch, ?_⟩
      intro a ha c hc
      obtain ⟨j, rest, hapos⟩ := extractF_pos_shape ha
      have hcpos : c.pos = q ++ [i] := (selfLeaf_mem hc).1
      rw [hapos, hcpos]
      exact postLtB_suffix _ _ (by simp)
    · intro a ha c hc
      obtain ⟨j, rest, hcpos⟩ := extractF_pos_shape hc
      rcases List.mem_append.mp ha with ha | ha
      · obtain ⟨j', rest', hapos⟩ := extractF_pos_shape ha
        rw [hapos, hcpos, List.append_assoc, postLtB_append_same]
        exact postLtB_head_lt (by omega) _ _
      · have hapos := (selfLeaf_mem ha).1
        rw [hapos, hcpos, postLtB_append_same]
        exact postLtB_head_lt (by omega) _ _

theorem filter_pos_of_unique : ∀ (L : List DocNode) (p : List Nat) (x : DocNode),
    L.Pairwise (fun a c => postLtB a.pos c.pos = true) →
    x ∈ L → x.pos = p → (∀ l ∈ L, l.pos = p → l = x) →
    L.filter (fun l => l.pos == p) = [x] := by
  intro L
  induction L with
  | nil => intro p x _ hx; cases hx
  | cons y rest ih =>
    intro p x hpw hx hxp huniq
    obtain ⟨hy, hpw'⟩ := List.pairwise_cons.mp hpw
    by_cases hyp : y.pos = p
    · have hyx : y = x := huniq y (List.mem_cons_self y rest) hyp
      subst hyx
      rw [List.filter_cons]
      rw [if_pos (by simpa using hyp)]
      have hrest : rest.filter (fun l => l.pos == p) = [] := by
        apply List.filter_eq_nil_iff.mpr
        intro l hl hbeq
        have hlp : l.pos = p := by simpa using hbeq
        have hly : l = y := huniq l (List.mem_cons_of_mem y hl) hlp
        have := hy l hl
        rw [hly, hyp] at this
        rw [postLtB_irrefl] at this
        cases this
      rw [hrest]
    · rw [List.filter_cons]
      rw [if_neg (by simpa using hyp)]
      have hx' : x ∈ rest := by
        rcases List.mem_cons.mp hx with hx' | hx'
        · rw [hx'] at hxp
          exact absurd hxp hyp
        · exact hx'
      exact ih p x hpw' hx' hxp fun l hl => huniq l (List.mem_cons_of_mem y hl)

theorem selfLeaf_td (bb : Bool) (pp : List Nat) (ch : HNode) :
    selfLeaf bb pp "td" ch =
      if hasMeaningfulDesc bb ch then [] else [⟨"td", "", pp⟩] := by
  simp only [selfLeaf, has_text_node]
  rw [if_neg (by decide), if_neg (by decide), if_neg (by decide), if_pos (by decide)]
  have h1 : childCtx bb "td" = bb := by cases bb <;> rfl
  simp only [h1, anyMeaningful_eq]

/-- Claim C2 (corrected): for a `td` element in the tree, the extractor emits
exactly one `td` cell leaf (with empty text) when the cell has no meaningful
descendant and none otherwise, where meaningfulness of a text-node descendant
uses the context-dependent test (non-empty inside a preformatted context,
non-white-space outside) rather than the outside-context test everywhere. -/
theorem c2_td_cell_emptiness (t : HNode) (p : List Nat) (ch sib : HNode)
    (hn : nodeAt t p = some (.elem "td" ch sib)) :
    (extract_leaves t).filter (fun l => l.pos == p) =
      if hasMeaningfulDesc (ctxAt false t p) ch then [] else [⟨"td", "", p⟩] := by
  cases p with
  | nil => rw [nodeAt] at hn; cases hn
  | cons j rest =>
    by_cases hm : hasMeaningfulDesc (ctxAt false t (j :: rest)) ch = true
    · rw [if_pos hm]
      apply List.filter_eq_nil_iff.mpr
      intro l hl hbeq
      have hlp : l.pos = j :: rest := by simpa using hbeq
      obtain ⟨j', rest', g, hpos, hnode, hown⟩ := mem_extractF t false [] 0 l hl
      simp only [List.nil_append, Nat.zero_add] at hpos
      rw [hlp] at hpos
      obtain ⟨hj, hrest⟩ : j = j' ∧ rest = rest' := by
        injection hpos with h1 h2; exact ⟨h1, h2⟩
      subst hj; subst hrest
      have hg : g = .elem "td" ch sib := Option.some.inj (hnode.symm.trans hn)
      subst hg
      simp only [ownLeaves] at hown
      rw [selfLeaf_td, if_pos hm] at hown
      cases hown
    · rw [if_neg hm]
      have hmem : (⟨"td", "", j :: rest⟩ : DocNode) ∈ extract_leaves t := by
        apply ownLeaves_extractF t false [] 0 j rest _ _ hn
        simp only [ownLeaves, List.nil_append, Nat.zero_add]
        rw [selfLeaf_td, if_neg hm]
        exact List.mem_singleton.mpr rfl
      have huniq : ∀ l ∈ extract_leaves t, l.pos = j :: rest →
          l = ⟨"td", "", j :: rest⟩ := by
        intro l hl hlp
        obtain ⟨j', rest', g, hpos, hnode, hown⟩ := mem_extractF t false [] 0 l hl
        simp only [List.nil_append, Nat.zero_add] at hpos
        rw [hlp] at hpos
        obtain ⟨hj, hrest⟩ : j = j' ∧ rest = rest' := by
          injection hpos with h1 h2; exact ⟨h1, h2⟩
        subst hj; subst hrest
        have hg : g = .elem "td" ch sib := Option.some.inj (hnode.symm.trans hn)
        subst hg
        simp only [ownLeaves] at hown
        rw [selfLeaf_td, if_neg hm] at hown
        rw [List.mem_singleton.mp hown, hlp]
      exact filter_pos_of_unique _ _ _ (extractF_pairwise t false [] 0) hmem rfl huniq

/-- Claim C2, counterexample to the claim as stated: in
`<td><pre>  </pre></td>` the `td` has no meaningful descendant under the
claim's outside-context test (the text is pure white-space and there is no
line break), so the claim demands exactly one cell leaf, yet the extractor
emits none for the `td` (the code applies the inside-`pre` non-empty test,
which makes the white-space meaningful). -/
theorem c2_counterexample :
    hasMeaningfulDescOut (.elem "pre" (.text "  " .nil) .nil) = false ∧
    nodeAt exTdPreWs [0, 0] =
      some (.elem "td" (.elem "pre" (.text "  " .nil) .nil) .nil) ∧
    (extract_leaves exTdPreWs).filter (fun l => l.pos == [0, 0]) = [] := by
  decide

/-- Claim C2, witness: `<td></td>` yields exactly one `td` cell leaf. -/
theorem c2_witness :
    (extract_leaves exTdEmpty).filter (fun l => l.pos == [0, 0]) =
      [⟨"td", "", [0, 0]⟩] := by
  have h := c2_td_cell_emptiness exTdEmpty [0, 0] .nil .nil (by decide)
  rw [h]
  decide

/-- Claim C3 (confirmed): for a text node in the tree, a text leaf is emitted
exactly when the node's text is non-empty (if some ancestor is a `pre`
element) respectively contains at least one non-white-space character
(otherwise), and the emitted leaf stores the original text verbatim,
untrimmed. -/
theorem c3_text_whitespace (t : HNode) (p : List Nat) (s : String) (sib : HNode)
    (hn : nodeAt t p = some (.text s sib)) :
    (extract_leaves t).filter (fun l => l.pos == p) =
      if (if ctxAt false t p then !(s.data.isEmpty) else s.data.any fun c => !isWs c)
      then [⟨"text", s, p⟩] else [] := by
  cases p with
  | nil => rw [nodeAt] at hn; cases hn
  | cons j rest =>
    have hkeq : (if ctxAt false t (j :: rest) then !(s.data.isEmpty)
        else s.data.any fun c => !isWs c) = keepText (ctxAt false t (j :: rest)) s := by
      cases hc : ctxAt false t (j :: rest)
      · simp [keepText_out]
      · simp [keepText]
    rw [hkeq]
    by_cases hk : keepText (ctxAt false t (j :: rest)) s = true
    · rw [if_pos hk]
      have hmem : (⟨"text", s, j :: rest⟩ : DocNode) ∈ extract_leaves t := by
        apply ownLeaves_extractF t false [] 0 j rest _ _ hn
        simp only [ownLeaves, List.nil_append, Nat.zero_add]
        rw [if_pos hk]
        exact List.mem_singleton.mpr rfl
      have huniq : ∀ l ∈ extract_leaves t, l.pos = j :: rest →
          l = ⟨"text", s, j :: rest⟩ := by
        intro l hl hlp
        obtain ⟨j', rest', g, hpos, hnode, hown⟩ := mem_extractF t false [] 0 l hl
        simp only [List.nil_append, Nat.zero_add] at hpos
        rw [hlp] at hpos
        obtain ⟨hj, hrest⟩ : j = j' ∧ rest = rest' := by
          injection hpos with h1 h2; exact ⟨h1, h2⟩
        subst hj; subst hrest
        have hg : g = .text s sib := Option.some.inj (hnode.symm.trans hn)
        subst hg
        simp only [ownLeaves] at hown
        rw [if_pos hk] at hown
        rw [List.mem_singleton.mp hown, hlp]
      exact filter_pos_of_unique _ _ _ (extractF_pairwise t false [] 0) hmem rfl huniq
    · rw [if_neg hk]
      apply List.filter_eq_nil_iff.mpr
      intro l hl hbeq
      have hlp : l.pos = j :: rest := by simpa using hbeq
      obtain ⟨j', rest', g, hpos, hnode, hown⟩ := mem_extractF t false [] 0 l hl
      simp only [List.nil_append, Nat.zero_add] at hpos
      rw [hlp] at hpos
      obtain ⟨hj, hrest⟩ : j = j' ∧ rest = rest' := by
        injection hpos with h1 h2; exact ⟨h1, h2⟩
      subst hj; subst hrest
      have hg : g = .text s sib := Option.some.inj (hnode.symm.trans hn)
      subst hg
      simp only [ownLeaves] at hown
      rw [if_neg hk] at hown
      cases hown

/-- Claim C3, witness: `<p>  hello  </p>` yields the untrimmed leaf, a pure
white-space text outside `pre` yields nothing, `<pre>   </pre>` keeps the
white-space leaf. -/
theorem c3_witness :
    (extract_leaves exHello).filter (fun l => l.pos == [0, 0, 0]) =
      [⟨"text", "  hello  ", [0, 0, 0]⟩] ∧
    (extract_leaves exWsOnly).filter (fun l => l.pos == [0, 0, 0]) = [] ∧
    (extract_leaves exPreWs).filter (fun l => l.pos == [0, 0, 0]) =
      [⟨"text", "   ", [0, 0, 0]⟩] := by
  refine ⟨?_, ?_, ?_⟩
  · rw [c3_text_whitespace exHello [0, 0, 0] "  hello  " .nil (by decide)]
    decide
  · rw [c3_text_whitespace exWsOnly [0, 0, 0] "   " .nil (by decide)]
    decide
  · rw [c3_text_whitespace exPreWs [0, 0, 0] "   " .nil (by decide)]
    decide

/-- Claim C7 (confirmed): every extracted leaf that is not a text leaf
carries empty text, and every text leaf stores verbatim the text of the
source text node its position addresses. -/
theorem c7_leaf_text_invariant (t : HNode) (l : DocNode) (h : l ∈ extract_leaves t) :
    (l.name ≠ "text" → l.text = "") ∧
    (l.name = "text" → ∃ sib, nodeAt t l.pos = some (.text l.text sib)) := by
  obtain ⟨j, rest, g, hpos, hnode, hown⟩ := mem_extractF t false [] 0 l h
  simp only [List.nil_append, Nat.zero_add] at hpos
  cases g with
  | nil => simp [ownLeaves] at hown
  | comment s sib => simp [ownLeaves] at hown
  | text s sib =>
    simp only [ownLeaves] at hown
    by_cases hk : keepText (ctxAt false t (j :: rest)) s = true
    · rw [if_pos hk] at hown
      have hl : l = ⟨"text", s, l.pos⟩ := List.mem_singleton.mp hown
      have hname : l.name = "text" := congrArg DocNode.name hl
      have htext : l.text = s := congrArg DocNode.text hl
      constructor
      · intro hne
        exact absurd hname hne
      · intro _
        refine ⟨sib, ?_⟩
        rw [hpos, htext]
        exact hnode
    · rw [if_neg hk] at hown
      cases hown
  | elem nm ch sib =>
    simp only [ownLeaves] at hown
    obtain ⟨_, htext, hname⟩ := selfLeaf_mem hown
    exact ⟨fun _ => htext, fun hc => absurd hc hname⟩

/-- Claim C7, witness: the `img` leaf of `<img/>` carries empty text. -/
theorem c7_witness : (⟨"img", "", [0, 0]⟩ : DocNode).text = "" :=
  (c7_leaf_text_invariant exImgOnly ⟨"img", "", [0, 0]⟩ (by decide)).1 (by decide)

/-- Claim C8 (confirmed): a `th` element never produces a leaf of its own —
the empty-cell rule of the extractor matches only the tag name `td` — so no
extracted leaf sits at a `th` element's position. -/
theorem c8_th_no_leaf (t : HNode) (p : List Nat) (ch sib : HNode)
    (hn : nodeAt t p = some (.elem "th" ch sib)) :
    ∀ l ∈ extract_leaves t, l.pos ≠ p := by
  intro l hl hlp
  obtain ⟨j, rest, g, hpos, hnode, hown⟩ := mem_extractF t false [] 0 l hl
  simp only [List.nil_append, Nat.zero_add] at hpos
  rw [hlp] at hpos
  subst hpos
  have hg : g = .elem "th" ch sib := Option.some.inj (hnode.symm.trans hn)
  subst hg
  simp only [ownLeaves, selfLeaf] at hown
  rw [if_neg (by decide), if_neg (by decide), if_neg (by decide),
    if_neg (by decide)] at hown
  cases hown

/-- Claim C8, witness: with an empty `th` at position `[0, 0]` followed by a
paragraph, the only extracted leaf does not sit at the `th` position. -/
theorem c8_witness : (⟨"text", "x", [0, 1, 0]⟩ : DocNode).pos ≠ [0, 0] :=
  c8_th_no_leaf exThThenP [0, 0] .nil (.elem "p" (.text "x" .nil) .nil) (by decide)
    ⟨"text", "x", [0, 1, 0]⟩ (by decide)

/-- Claim C6, counterexample to the order part as stated: in
`<td><img/></td>` the `td` appears first in the document (its position
`[0, 0]` precedes `[0, 0, 1]`... precedes the `img` position `[0, 0, 0]` in
first-appearance order), yet the empty cell's `td` leaf is emitted after the
`img` leaf, because leaves are recorded on closing visits. -/
theorem c6_counterexample :
    extract_leaves exTdImg = [⟨"img", "", [0, 0, 0]⟩, ⟨"td", "", [0, 0]⟩] ∧
    docLtB [0, 0] [0, 0, 0] = true := by
  decide

/-- Claim C6 (corrected): `extract_leaves` is a pure function of the input
tree (equal trees give equal outputs), its output is strictly ordered by the
closing-visit (post-order) position of the source nodes, and for any two
leaves where the later one's node is not an ancestor of the earlier one's the
relative output order agrees with first-appearance (document) order; when an
empty `td` cell contains a leaf-producing element (`img`, `iframe`, or the
rule placeholder) the descendant's leaf precedes the cell leaf, so the
unrestricted first-appearance claim fails. -/
theorem c6_order :
    (∀ t₁ t₂ : HNode, t₁ = t₂ → extract_leaves t₁ = extract_leaves t₂) ∧
    (∀ t : HNode,
      (extract_leaves t).Pairwise fun a c => postLtB a.pos c.pos = true) ∧
    (∀ t : HNode, ∀ i j : Fin (extract_leaves t).length, i < j →
      begWith ((extract_leaves t).get j).pos ((extract_leaves t).get i).pos = false →
      docLtB ((extract_leaves t).get i).pos ((extract_leaves t).get j).pos = true) := by
  refine ⟨fun t₁ t₂ h => by rw [h], fun t => extractF_pairwise t false [] 0, ?_⟩
  intro t i j hij hbeg
  have hpw := extractF_pairwise t false [] 0
  have hpost := List.pairwise_iff_get.mp hpw i j hij
  exact docLtB_of_postLtB _ _ hpost hbeg

/-- Claim C6, witness: for two sibling text leaves the output order agrees
with document order. -/
theorem c6_witness :
    extract_leaves exTwoTexts = extract_leaves exTwoTexts ∧
    docLtB ((extract_leaves exTwoTexts).get ⟨0, by decide⟩).pos
      ((extract_leaves exTwoTexts).get ⟨1, by decide⟩).pos = true :=
  ⟨c6_order.1 exTwoTexts exTwoTexts rfl,
    c6_order.2.2 exTwoTexts ⟨0, by decide⟩ ⟨1, by decide⟩ (by decide) (by decide)⟩

theorem begWith_escHrL : ∀ s : List Char, ∀ p : List Char, p ≠ [] →
    (∀ c ∈ p, c ≠ '<') → begWith p (escHrL s) = true → begWith p s = true := by
  intro s
  induction s using escHrL.induct
  case _ rest ih =>
    intro p hne hlt h
    obtain ⟨c₀, p', rfl⟩ : ∃ c₀ p', p = c₀ :: p' := by
      cases p with
      | nil => exact absurd rfl hne
      | cons a b => exact ⟨a, b, rfl⟩
    have hc₀ : c₀ ≠ '<' := hlt c₀ (List.mem_cons_self _ _)
    rw [escHrL.eq_1] at h
    rw [show phPair ++ escHrL rest =
      '<' :: ('h' :: 'r' :: 'b' :: 'r' :: '>' :: '<' :: '/' :: 'h' :: 'r' :: 'b' ::
        'r' :: '>' :: escHrL rest) from rfl] at h
    rw [begWith, if_neg hc₀] at h
    cases h
  case _ rest ih =>
    intro p hne hlt h
    obtain ⟨c₀, p', rfl⟩ : ∃ c₀ p', p = c₀ :: p' := by
      cases p with
      | nil => exact absurd rfl hne
      | cons a b => exact ⟨a, b, rfl⟩
    have hc₀ : c₀ ≠ '<' := hlt c₀ (List.mem_cons_self _ _)
    rw [escHrL.eq_2] at h
    rw [show phPair ++ escHrL rest =
      '<' :: ('h' :: 'r' :: 'b' :: 'r' :: '>' :: '<' :: '/' :: 'h' :: 'r' :: 'b' ::
        'r' :: '>' :: escHrL rest) from rfl] at h
    rw [begWith, if_neg hc₀] at h
    cases h
  case _ rest ih =>
    intro p hne hlt h
    obtain ⟨c₀, p', rfl⟩ : ∃ c₀ p', p = c₀ :: p' := by
      cases p with
      | nil => exact absurd rfl hne
      | cons a b => exact ⟨a, b, rfl⟩
    have hc₀ : c₀ ≠ '<' := hlt c₀ (List.mem_cons_self _ _)
    rw [escHrL.eq_3] at h
    rw [show phPair ++ escHrL rest =
      '<' :: ('h' :: 'r' :: 'b' :: 'r' :: '>' :: '<' :: '/' :: 'h' :: 'r' :: 'b' ::
        'r' :: '>' :: escHrL rest) from rfl] at h
    rw [begWith, if_neg hc₀] at h
    cases h
  case _ rest ih =>
    intro p hne hlt h
    obtain ⟨c₀, p', rfl⟩ : ∃ c₀ p', p = c₀ :: p' := by
      cases p with
      | nil => exact absurd rfl hne
      | cons a b => exact ⟨a, b, rfl⟩
    have hc₀ : c₀ ≠ '<' := hlt c₀ (List.mem_cons_self _ _)
    rw [escHrL.eq_4] at h
    rw [show phPair ++ escHrL rest =
      '<' :: ('h' :: 'r' :: 'b' :: 'r' :: '>' :: '<' :: '/' :: 'h' :: 'r' :: 'b' ::
        'r' :: '>' :: escHrL rest) from rfl] at h
    rw [begWith, if_neg hc₀] at h
    cases h
  case _ c rest h1 h2 h3 h4 ih =>
    intro p hne hlt h
    obtain ⟨c₀, p', rfl⟩ : ∃ c₀ p', p = c₀ :: p' := by
      cases p with
      | nil => exact absurd rfl hne
      | cons a b => exact ⟨a, b, rfl⟩
    rw [escHrL.eq_5 c rest h1 h2 h3 h4] at h
    rw [begWith] at h
    by_cases hcc : c₀ = c
    · rw [if_pos hcc] at h
      rw [begWith, if_pos hcc]
      cases p' with
      | nil => rfl
      | cons a b =>
        exact ih (a :: b) (by simp)
          (fun x hx => hlt x (List.mem_cons_of_mem _ hx)) h
    · rw [if_neg hcc] at h
      cases h
  case _ =>
    intro p hne hlt h
    rw [escHrL.eq_6] at h
    cases p with
    | nil => exact absurd rfl hne
    | cons a b => rw [begWith] at h; cases h

theorem hasSubB_escHrL (t' : List Char) (hne : t' ≠ []) (hlt : ∀ c ∈ t', c ≠ '<')
    (hph : ∀ l : List Char, hasSubB ('<' :: t') (phPair ++ l) = hasSubB ('<' :: t') l)
    (htok : ∀ r : List Char,
      (∃ r₁, t' ++ r = '/' :: 'h' :: 'r' :: '/' :: '>' :: r₁) ∨
      (∃ r₁, t' ++ r = '/' :: 'h' :: 'r' :: '>' :: r₁) ∨
      (∃ r₁, t' ++ r = 'h' :: 'r' :: '/' :: '>' :: r₁) ∨
      (∃ r₁, t' ++ r = 'h' :: 'r' :: '>' :: r₁)) :
    ∀ s : List Char, hasSubB ('<' :: t') (escHrL s) = false := by
  intro s
  induction s using escHrL.induct
  case _ rest ih => rw [escHrL.eq_1, hph, ih]
  case _ rest ih => rw [escHrL.eq_2, hph, ih]
  case _ rest ih => rw [escHrL.eq_3, hph, ih]
  case _ rest ih => rw [escHrL.eq_4, hph, ih]
  case _ c rest h1 h2 h3 h4 ih =>
    rw [escHrL.eq_5 c rest h1 h2 h3 h4]
    rw [hasSubB, ih, Bool.or_false]
    cases hbw : begWith ('<' :: t') (c :: escHrL rest) with
    | false => rfl
    | true =>
      exfalso
      rw [begWith] at hbw
      by_cases hc : '<' = c
      · rw [if_pos hc] at hbw
        have hbr : begWith t' rest = true := begWith_escHrL rest t' hne hlt hbw
        obtain ⟨r, hr⟩ := begWith_to_append hbr
        rcases htok r with ⟨r₁, he⟩ | ⟨r₁, he⟩ | ⟨r₁, he⟩ | ⟨r₁, he⟩
        · exact h1 r₁ hc.symm (by rw [hr, he])
        · exact h2 r₁ hc.symm (by rw [hr, he])
        · exact h3 r₁ hc.symm (by rw [hr, he])
        · exact h4 r₁ hc.symm (by rw [hr, he])
      · rw [if_neg hc] at hbw
        cases hbw
  case _ =>
    rw [escHrL.eq_6]
    rfl

theorem escHr_no_open_hr :
    ∀ s : List Char, hasSubB ('<' :: 'h' :: 'r' :: '>' :: []) (escHrL s) = false :=
  hasSubB_escHrL ['h', 'r', '>'] (by decide) (by decide)
    (fun _ => rfl)
    (fun r => Or.inr (Or.inr (Or.inr ⟨r, rfl⟩)))

theorem escHr_no_self_hr :
    ∀ s : List Char, hasSubB ('<' :: 'h' :: 'r' :: '/' :: '>' :: []) (escHrL s) = false :=
  hasSubB_escHrL ['h', 'r', '/', '>'] (by decide) (by decide)
    (fun _ => rfl)
    (fun r => Or.inr (Or.inr (Or.inl ⟨r, rfl⟩)))

theorem escHr_no_close_hr :
    ∀ s : List Char, hasSubB ('<' :: '/' :: 'h' :: 'r' :: '>' :: []) (escHrL s) = false :=
  hasSubB_escHrL ['/', 'h', 'r', '>'] (by decide) (by decide)
    (fun _ => rfl)
    (fun r => Or.inr (Or.inl ⟨r, rfl⟩))

/-- Claim C4 (confirmed): the pre-parse rewrite turns every `<hr>`/`<hr/>`
occurrence into the placeholder pair `<hrbr></hrbr>` (no such occurrence
survives in its output), and on the tree parsed from the rewritten
`<p>a<hr/>b</p>` the extractor emits an `hr` leaf (relabelled from the
placeholder name) strictly between the text leaves `a` and `b`. -/
theorem c4_hr_rewrite :
    esc_hr "<p>a<hr/>b</p>" = "<p>a<hrbr></hrbr>b</p>" ∧
    extract_leaves exHrBetween =
      [⟨"text", "a", [0, 0, 0]⟩, ⟨"hr", "", [0, 0, 1]⟩, ⟨"text", "b", [0, 0, 2]⟩] ∧
    (∀ s : String, hasSubB "<hr>".data (escHrL s.data) = false) ∧
    (∀ s : String, hasSubB "<hr/>".data (escHrL s.data) = false) := by
  refine ⟨by decide, by decide, fun s => escHr_no_open_hr s.data,
    fun s => escHr_no_self_hr s.data⟩

/-- Claim C9 (confirmed): the rewrite's pattern also matches the closing tag
`</hr>` — no occurrence of it survives in the output either — so
`<hr></hr>` is rewritten to two placeholder pairs and the extractor then
yields two `hr` leaves. -/
theorem c9_closing_hr :
    esc_hr "<hr></hr>" = "<hrbr></hrbr><hrbr></hrbr>" ∧
    extract_leaves exTwoHr = [⟨"hr", "", [0, 0]⟩, ⟨"hr", "", [0, 1]⟩] ∧
    (∀ s : String, hasSubB "</hr>".data (escHrL s.data) = false) := by
  refine ⟨by decide, by decide, fun s => escHr_no_close_hr s.data⟩

/-- Claim C1, code-bug evidence: the registered listItem rule's trailing-run
set literally contains the string `mediaAdfPermittedChildren` (the Rust type
name pasted into the tag list) and not `mediaSingle`, so the sequence
`[paragraph, bulletList, mediaSingle]`, legal per the spec, is rejected; a
sequence staying inside the registered strings is accepted, showing the
PrefixThenRepeat shape itself behaves as described. -/
theorem c1_listItem_rule_code_bug :
    LEGAL_CHILD_TYPES "listItem" =
      some (.any_starts_with ["paragraph", "mediaSingle", "codeBlock"]
        ["paragraph", "mediaAdfPermittedChildren", "codeBlock", "orderedList",
          "bulletList"]) ∧
    ((["paragraph", "mediaAdfPermittedChildren", "codeBlock", "orderedList",
        "bulletList"] : List String).contains "mediaSingle") = false ∧
    (LEGAL_CHILD_TYPES "listItem").map
      (fun r => permits r ["paragraph", "bulletList", "mediaSingle"]) = some false ∧
    (LEGAL_CHILD_TYPES "listItem").map
      (fun r => permits r ["paragraph", "bulletList", "bulletList"]) = some true := by
  decide

theorem getKV_setKV_self (k : String) (v : JVal) : ∀ m, getKV k (setKV k v m) = some v := by
  intro m
  induction m with
  | nil => simp [setKV, getKV]
  | cons kv rest ih =>
    obtain ⟨k', v'⟩ := kv
    by_cases h : k' = k
    · simp [setKV, h, getKV]
    · simp [setKV, h, getKV, ih]

theorem getKV_setKV_ne (k k' : String) (v : JVal) (h : k' ≠ k) :
    ∀ m, getKV k (setKV k' v m) = getKV k m := by
  intro m
  induction m with
  | nil => simp [setKV, getKV, h]
  | cons kv rest ih =>
    obtain ⟨k'', v''⟩ := kv
    simp only [setKV]
    by_cases h2 : k'' = k'
    · rw [if_pos h2]
      simp only [getKV]
      rw [if_neg h, if_neg (fun hh => h (h2.symm.trans hh))]
    · rw [if_neg h2]
      simp only [getKV]
      by_cases h3 : k'' = k
      · rw [if_pos h3, if_pos h3]
      · rw [if_neg h3, if_neg h3]
        exact ih

theorem getKV_maybeSet_ne (k k' : String) (o : Option JVal) (m : List (String × JVal))
    (h : k' ≠ k) : getKV k (maybeSet k' o m) = getKV k m := by
  cases o with
  | none => rfl
  | some v => exact getKV_setKV_ne k k' v h m

theorem getKV_maybeSet_self (k : String) (o : Option JVal) (m : List (String × JVal))
    (h : getKV k m = none) : getKV k (maybeSet k o m) = o := by
  cases o with
  | none => exact h
  | some v => exact getKV_setKV_self k v m

theorem getKV_base_none (k : String) (mid : String) (h1 : "id" ≠ k) (h2 : "type" ≠ k) :
    getKV k [("id", JVal.str mid), ("type", JVal.str "file")] = none := by
  simp only [getKV]
  rw [if_neg h1, if_neg h2]

/-- Claim C5 (confirmed): the image resolver maps `layout` from `data-layout`
with default `center`, synthesizes exactly one `media` child, uses
`{url, type: external}` when `src` is present, and otherwise (with
`data-media-id` present) `{id, type: file}` plus the optional `collection`,
`alt`, integer `width`/`height` (only when the strings parse as i64), and
`widthType` (only when it equals `pixel` or `percentage`). -/
theorem c5_img_resolution (attr : String → Option String) :
    getKV "layout" (imgResolve attr).1 =
      some (.str ((attr "data-layout").getD "center")) ∧
    (imgResolve attr).2.length = 1 ∧
    (∀ u, attr "src" = some u →
      (imgResolve attr).2 =
        [⟨"media", [("url", .str u), ("type", .str "external")]⟩]) ∧
    (attr "src" = none → ∀ mid, attr "data-media-id" = some mid →
      ∃ ma, (imgResolve attr).2 = [⟨"media", ma⟩] ∧
        getKV "id" ma = some (.str mid) ∧
        getKV "type" ma = some (.str "file") ∧
        getKV "collection" ma = (attr "data-collection").map JVal.str ∧
        getKV "alt" ma = (attr "alt").map JVal.str ∧
        getKV "width" ma = ((attr "data-width").bind parseI64).map JVal.int ∧
        getKV "height" ma = ((attr "data-height").bind parseI64).map JVal.int ∧
        getKV "widthType" ma = ((attr "data-width-type").bind fun w =>
          if w == "pixel" || w == "percentage" then some (JVal.str w) else none)) := by
  refine ⟨?_, ?_, ?_, ?_⟩
  · simp [imgResolve, getKV]
  · rcases h1 : attr "src" with _ | u
    · rcases h2 : attr "data-media-id" with _ | mid
      · simp [imgResolve, h1, h2]
      · simp [imgResolve, h1, h2]
    · simp [imgResolve, h1]
  · intro u hu
    simp [imgResolve, hu]
  · intro hs mid hm
    refine ⟨maybeSet "widthType" ((attr "data-width-type").bind fun w =>
        if w == "pixel" || w == "percentage" then some (JVal.str w) else none)
      (maybeSet "height" (((attr "data-height").bind parseI64).map JVal.int)
      (maybeSet "width" (((attr "data-width").bind parseI64).map JVal.int)
      (maybeSet "alt" ((attr "alt").map JVal.str)
      (maybeSet "collection" ((attr "data-collection").map JVal.str)
        [("id", JVal.str mid), ("type", JVal.str "file")])))),
      ?_, ?_, ?_, ?_, ?_, ?_, ?_, ?_⟩
    · simp only [imgResolve, hs, hm]
    · rw [getKV_maybeSet_ne "id" "widthType" _ _ (by decide),
        getKV_maybeSet_ne "id" "height" _ _ (by decide),
        getKV_maybeSet_ne "id" "width" _ _ (by decide),
        getKV_maybeSet_ne "id" "alt" _ _ (by decide),
        getKV_maybeSet_ne "id" "collection" _ _ (by decide)]
      simp [getKV]
    · rw [getKV_maybeSet_ne "type" "widthType" _ _ (by decide),
        getKV_maybeSet_ne "type" "height" _ _ (by decide),
        getKV_maybeSet_ne "type" "width" _ _ (by decide),
        getKV_maybeSet_ne "type" "alt" _ _ (by decide),
        getKV_maybeSet_ne "type" "collection" _ _ (by decide)]
      simp [getKV]
    · rw [getKV_maybeSet_ne "collection" "widthType" _ _ (by decide),
        getKV_maybeSet_ne "collection" "height" _ _ (by decide),
        getKV_maybeSet_ne "collection" "width" _ _ (by decide),
        getKV_maybeSet_ne "collection" "alt" _ _ (by decide),
        getKV_maybeSet_self "collection" _ _
          (getKV_base_none "collection" mid (by decide) (by decide))]
    · rw [getKV_maybeSet_ne "alt" "widthType" _ _ (by decide),
        getKV_maybeSet_ne "alt" "height" _ _ (by decide),
        getKV_maybeSet_ne "alt" "width" _ _ (by decide),
        getKV_maybeSet_self "alt" _ _ ?_]
      rw [getKV_maybeSet_ne "alt" "collection" _ _ (by decide),
        getKV_base_none "alt" mid (by decide) (by decide)]
    · rw [getKV_maybeSet_ne "width" "widthType" _ _ (by decide),
        getKV_maybeSet_ne "width" "height" _ _ (by decide),
        getKV_maybeSet_self "width" _ _ ?_]
      rw [getKV_maybeSet_ne "width" "alt" _ _ (by decide),
        getKV_maybeSet_ne "width" "collection" _ _ (by decide),
        getKV_base_none "width" mid (by decide) (by decide)]
    · rw [getKV_maybeSet_ne "height" "widthType" _ _ (by decide),
        getKV_maybeSet_self "height" _ _ ?_]
      rw [getKV_maybeSet_ne "height" "width" _ _ (by decide),
        getKV_maybeSet_ne "height" "alt" _ _ (by decide),
        getKV_maybeSet_ne "height" "collection" _ _ (by decide),
        getKV_base_none "height" mid (by decide) (by decide)]
    · rw [getKV_maybeSet_self "widthType" _ _ ?_]
      rw [getKV_maybeSet_ne "widthType" "height" _ _ (by decide),
        getKV_maybeSet_ne "widthType" "width" _ _ (by decide),
        getKV_maybeSet_ne "widthType" "alt" _ _ (by decide),
        getKV_maybeSet_ne "widthType" "collection" _ _ (by decide),
        getKV_base_none "widthType" mid (by decide) (by decide)]

/-- Claim C5, witness: the two spec examples, an external image with
`data-layout="wide"` and a file image with integer width `50` and
`widthType="pixel"`. -/
theorem c5_witness :
    (imgResolve attrExternal).2 =
      [⟨"media", [("url", .str "http://x/y.png"), ("type", .str "external")]⟩] ∧
    getKV "layout" (imgResolve attrExternal).1 = some (.str "wide") ∧
    ((imgResolve attrFile).2.map fun c => getKV "width" c.attrs) = [some (.int 50)] ∧
    ((imgResolve attrFile).2.map fun c => getKV "widthType" c.attrs) =
      [some (.str "pixel")] := by
  refine ⟨?_, ?_, ?_, ?_⟩
  · exact (c5_img_resolution attrExternal).2.2.1 "http://x/y.png" rfl
  · rw [(c5_img_resolution attrExternal).1]
    decide
  · obtain ⟨ma, hma, _, _, _, _, hwid, _, _⟩ :=
      (c5_img_resolution attrFile).2.2.2 rfl "123" rfl
    rw [hma]
    simp only [List.map_cons, List.map_nil]
    rw [hwid]
    decide
  · obtain ⟨ma, hma, _, _, _, _, _, _, hwt⟩ :=
      (c5_img_resolution attrFile).2.2.2 rfl "123" rfl
    rw [hma]
    simp only [List.map_cons, List.map_nil]
    rw [hwt]
    decide

/-- Claim C10 (confirmed): an `img` with neither `src` nor `data-media-id`
still synthesizes exactly one `media` child, with an empty attribute
object. -/
theorem c10_img_default_child (attr : String → Option String)
    (hs : attr "src" = none) (hm : attr "data-media-id" = none) :
    (imgResolve attr).2 = [⟨"media", []⟩] := by
  simp [imgResolve, hs, hm]

/-- Claim C10, witness: the attribute-free image. -/
theorem c10_witness : (imgResolve (fun _ => none)).2 = [⟨"media", []⟩] :=
  c10_img_default_child (fun _ => none) rfl rfl
